import Mathlib

/-!
Verification of the single-writer sequential-commit aggregator of
`src/main.go` (the aggregator goroutine, lines 53-79).

The aggregator keeps a pending set of received offsets (the keys of the Go
map `commits`) and a watermark (the Go variable `committed`, initially -1).
On each received offset `val` it inserts `val` into the pending set, then
repeatedly looks up `committed + 1` in the set, deleting it and advancing
`committed` while present, and finally publishes the new watermark.

The absorb loop is embedded with an explicit fuel argument; fuel equal to
the pending set's cardinality is proved sufficient (each iteration removes
one element), so `commitStep` computes exactly what the Go loop computes.
-/

/-- State of the aggregator: the pending set `commits` (keys of the Go map)
and the published watermark `committed`. -/
structure AggState where
  commits : Finset Int
  committed : Int
  deriving DecidableEq

/-- The absorb loop of the aggregator (src/main.go lines 66-74): starting
from watermark `c`, while `c + 1` is in the pending set, delete it and
advance `c`.  `fuel` bounds the number of iterations; since every iteration
removes one element, fuel equal to the set's cardinality is exact. -/
def absorbGo : Nat → Finset Int → Int → Finset Int × Int
  | 0, commits, c => (commits, c)
  | fuel + 1, commits, c =>
    if (c + 1) ∈ commits then absorbGo fuel (commits.erase (c + 1)) (c + 1)
    else (commits, c)

/-- One iteration of the aggregator's ingestion loop (src/main.go lines
56-78): insert `val` into the pending set, run the absorb loop from the
current watermark, and store the resulting watermark. -/
def commitStep (s : AggState) (val : Int) : AggState :=
  let commits := insert val s.commits
  let r := absorbGo commits.card commits s.committed
  { commits := r.1, committed := r.2 }

/-- Aggregator state at start: empty pending set, watermark -1
(src/main.go lines 52, 55). -/
def initState : AggState := { commits := ∅, committed := -1 }

/-- The aggregator state after processing the offsets of `l` in order,
starting from the initial state. -/
def reached (l : List Int) : AggState := l.foldl commitStep initState

/-- The offsets `0, …, N-1` as integers, the universe the producers draw
from (src/main.go lines 40-48). -/
def intRange (N : Nat) : List Int := (List.range N).map (fun k : Nat => (k : Int))

/-- Relation between an aggregator state `s` and the set `R` of offsets
received so far: the watermark is at least -1, every offset in
`[0, committed]` has been received, `committed + 1` has not, the pending
set only holds received offsets, and every received offset above the
watermark is pending. -/
def SInv (R : Finset Int) (s : AggState) : Prop :=
  -1 ≤ s.committed ∧
  (∀ k : Int, 0 ≤ k → k ≤ s.committed → k ∈ R) ∧
  s.committed + 1 ∉ R ∧
  s.commits ⊆ R ∧
  (∀ x ∈ R, s.committed < x → x ∈ s.commits)

/-- Strengthening of `SInv` that holds when the received offsets are
pairwise distinct and non-negative: every pending offset is strictly
above the watermark. -/
def PInv (R : Finset Int) (s : AggState) : Prop :=
  SInv R s ∧ ∀ x ∈ s.commits, s.committed < x

theorem absorbGo_le (fuel : Nat) : ∀ (S : Finset Int) (c : Int),
    c ≤ (absorbGo fuel S c).2 := by
  induction fuel with
  | zero => intro S c; simp [absorbGo]
  | succ f ih =>
    intro S c
    simp only [absorbGo]
    split
    · exact le_trans (by omega) (ih (S.erase (c + 1)) (c + 1))
    · simp

theorem absorbGo_exit (fuel : Nat) (S : Finset Int) (c : Int)
    (h : c + 1 ∉ S) : absorbGo fuel S c = (S, c) := by
  cases fuel with
  | zero => rfl
  | succ f => simp [absorbGo, h]

theorem absorbGo_spec (fuel : Nat) : ∀ (S : Finset Int) (c : Int)
    (W : Finset Int), S.card ≤ fuel → S ⊆ W →
    (∀ x ∈ W, c < x → x ∈ S) →
    c ≤ (absorbGo fuel S c).2 ∧
    (absorbGo fuel S c).1 ⊆ W ∧
    (∀ k : Int, c < k → k ≤ (absorbGo fuel S c).2 → k ∈ W) ∧
    (absorbGo fuel S c).2 + 1 ∉ W ∧
    (∀ x ∈ W, (absorbGo fuel S c).2 < x → x ∈ (absorbGo fuel S c).1) := by
  induction fuel with
  | zero =>
    intro S c W hcard hsub hx
    have hS : S = ∅ := Finset.card_eq_zero.mp (Nat.le_zero.mp hcard)
    subst hS
    have he : absorbGo 0 (∅ : Finset Int) c = (∅, c) := rfl
    rw [he]
    refine ⟨le_refl c, hsub, ?_, ?_, ?_⟩
    · intro k hk1 hk2; omega
    · intro hmem
      exact absurd (hx _ hmem (by omega)) (by simp)
    · intro x hxW hlt
      exact hx x hxW hlt
  | succ f ih =>
    intro S c W hcard hsub hx
    by_cases h : c + 1 ∈ S
    · have hrec := ih (S.erase (c + 1)) (c + 1) W
        (by
          have := Finset.card_erase_of_mem h
          omega)
        (fun x hxe => hsub (Finset.erase_subset _ _ hxe))
        (by
          intro x hxW hlt
          exact Finset.mem_erase.mpr ⟨by omega, hx x hxW (by omega)⟩)
      simp only [absorbGo, if_pos h]
      refine ⟨le_trans (by omega) hrec.1, hrec.2.1, ?_, hrec.2.2.2.1, hrec.2.2.2.2⟩
      intro k hk1 hk2
      rcases eq_or_lt_of_le (show c + 1 ≤ k by omega) with heq | hlt
      · exact hsub (heq ▸ h)
      · exact hrec.2.2.1 k hlt hk2
    · simp only [absorbGo, if_neg h]
      refine ⟨le_refl c, hsub, ?_, ?_, hx⟩
      · intro k hk1 hk2; omega
      · intro hmem; exact h (hx _ hmem (by omega))

theorem absorbGo_fuel_ext : ∀ (f g : Nat) (S : Finset Int) (c : Int),
    S.card ≤ f → S.card ≤ g → absorbGo f S c = absorbGo g S c := by
  intro f
  induction f with
  | zero =>
    intro g S c hf hg
    have hS : S = ∅ := Finset.card_eq_zero.mp (Nat.le_zero.mp hf)
    subst hS
    cases g with
    | zero => rfl
    | succ g => simp [absorbGo]
  | succ f ih =>
    intro g S c hf hg
    cases g with
    | zero =>
      have hS : S = ∅ := Finset.card_eq_zero.mp (Nat.le_zero.mp hg)
      subst hS
      simp [absorbGo]
    | succ g =>
      simp only [absorbGo]
      split
      · rename_i h
        have hc := Finset.card_erase_of_mem h
        exact ih g (S.erase (c + 1)) (c + 1) (by omega) (by omega)
      · rfl

theorem commitStep_commits (s : AggState) (v : Int) :
    (commitStep s v).commits =
      (absorbGo (insert v s.commits).card (insert v s.commits) s.committed).1 := rfl

theorem commitStep_committed (s : AggState) (v : Int) :
    (commitStep s v).committed =
      (absorbGo (insert v s.commits).card (insert v s.commits) s.committed).2 := rfl

theorem SInv_initState : SInv ∅ initState := by
  refine ⟨by simp [initState], ?_, by simp [initState], by simp [initState],
    by simp [initState]⟩
  intro k hk1 hk2
  simp [initState] at hk2
  omega

theorem SInv_step (R : Finset Int) (s : AggState) (v : Int)
    (h : SInv R s) : SInv (insert v R) (commitStep s v) := by
  obtain ⟨h1, h2, h3, h4, h5⟩ := h
  have hsub : insert v s.commits ⊆ insert v R := Finset.insert_subset_insert _ h4
  have hx : ∀ x ∈ insert v R, s.committed < x → x ∈ insert v s.commits := by
    intro x hxW hlt
    rcases Finset.mem_insert.mp hxW with rfl | hxR
    · exact Finset.mem_insert_self _ _
    · exact Finset.mem_insert_of_mem (h5 x hxR hlt)
  have hs := absorbGo_spec (insert v s.commits).card (insert v s.commits)
    s.committed (insert v R) (le_refl _) hsub hx
  rw [SInv, commitStep_commits, commitStep_committed]
  refine ⟨le_trans h1 hs.1, ?_, hs.2.2.2.1, hs.2.1, hs.2.2.2.2⟩
  intro k hk1 hk2
  by_cases hkc : k ≤ s.committed
  · exact Finset.mem_insert_of_mem (h2 k hk1 hkc)
  · exact hs.2.2.1 k (by omega) hk2

theorem reached_append (l : List Int) (v : Int) :
    reached (l ++ [v]) = commitStep (reached l) v := by
  simp [reached, List.foldl_append]

theorem toFinset_append_singleton (l : List Int) (v : Int) :
    (l ++ [v]).toFinset = insert v l.toFinset := by
  ext x
  simp [or_comm]

theorem reached_SInv (l : List Int) : SInv l.toFinset (reached l) := by
  induction l using List.reverseRecOn with
  | nil => simpa using SInv_initState
  | append_singleton l v ih =>
    rw [toFinset_append_singleton, reached_append]
    exact SInv_step _ _ _ ih

theorem committed_unique (R : Finset Int) (s t : AggState)
    (hs : SInv R s) (ht : SInv R t) : s.committed = t.committed := by
  obtain ⟨hs1, hs2, hs3, _, _⟩ := hs
  obtain ⟨ht1, ht2, ht3, _, _⟩ := ht
  by_contra hne
  rcases lt_or_gt_of_ne hne with hlt | hlt
  · exact hs3 (ht2 (s.committed + 1) (by omega) (by omega))
  · exact ht3 (hs2 (t.committed + 1) (by omega) (by omega))

theorem absorbGo_pos (fuel : Nat) : ∀ (S : Finset Int) (c : Int),
    (∀ x ∈ S, c < x) →
    ∀ x ∈ (absorbGo fuel S c).1, (absorbGo fuel S c).2 < x := by
  induction fuel with
  | zero => intro S c h; exact h
  | succ f ih =>
    intro S c h
    by_cases hc : c + 1 ∈ S
    · simp only [absorbGo, if_pos hc]
      apply ih
      intro x hx
      have h1 := h x (Finset.mem_of_mem_erase hx)
      have h2 := (Finset.mem_erase.mp hx).1
      omega
    · simp only [absorbGo, if_neg hc]
      exact h

theorem PInv_step (R : Finset Int) (s : AggState) (v : Int)
    (h : PInv R s) (hv : v ∉ R) (hv0 : 0 ≤ v) :
    PInv (insert v R) (commitStep s v) := by
  obtain ⟨hS, hgt⟩ := h
  refine ⟨SInv_step R s v hS, ?_⟩
  have hvc : s.committed < v := by
    by_contra hle
    exact hv (hS.2.1 v hv0 (by omega))
  have hall : ∀ x ∈ insert v s.commits, s.committed < x := by
    intro x hx
    rcases Finset.mem_insert.mp hx with rfl | hx
    · exact hvc
    · exact hgt x hx
  simp only [commitStep_commits, commitStep_committed]
  exact absorbGo_pos _ _ _ hall

theorem PInv_initState : PInv ∅ initState := by
  refine ⟨SInv_initState, ?_⟩
  intro x hx
  simp [initState] at hx

theorem reached_PInv (l : List Int) (hnd : l.Nodup) (hpos : ∀ x ∈ l, 0 ≤ x) :
    PInv l.toFinset (reached l) := by
  induction l using List.reverseRecOn with
  | nil => simpa using PInv_initState
  | append_singleton l v ih =>
    obtain ⟨hnd1, hnd2, hdisj⟩ := List.nodup_append.mp hnd
    have hvl : v ∉ l.toFinset := by
      rw [List.mem_toFinset]
      intro hm
      exact hdisj hm (List.mem_singleton_self v)
    rw [toFinset_append_singleton, reached_append]
    exact PInv_step _ _ _
      (ih hnd1 (fun x hx => hpos x (List.mem_append_left _ hx))) hvl
      (hpos v (List.mem_append_right _ (List.mem_singleton_self v)))

theorem AggState.eq_of_parts (s t : AggState) (h1 : s.commits = t.commits)
    (h2 : s.committed = t.committed) : s = t := by
  cases s
  cases t
  simp_all

theorem mem_intRange_toFinset (N : Nat) (x : Int) :
    x ∈ (intRange N).toFinset ↔ 0 ≤ x ∧ x < (N : Int) := by
  rw [intRange, List.mem_toFinset, List.mem_map]
  constructor
  · rintro ⟨k, hk, rfl⟩
    rw [List.mem_range] at hk
    omega
  · intro ⟨h0, h1⟩
    refine ⟨x.toNat, ?_, by omega⟩
    rw [List.mem_range]
    omega

theorem intRange_nodup (N : Nat) : (intRange N).Nodup := by
  rw [intRange]
  exact List.Nodup.map (fun a b hab => by exact_mod_cast hab) (List.nodup_range N)

theorem intRange_length (N : Nat) : (intRange N).length = N := by
  rw [intRange, List.length_map, List.length_range]

theorem committed_of_perm (N : Nat) (l : List Int)
    (h : l.Perm (intRange N)) : (reached l).committed = (N : Int) - 1 := by
  have hinv := reached_SInv l
  rw [List.toFinset_eq_of_perm _ _ h] at hinv
  obtain ⟨h1, h2, h3, _, _⟩ := hinv
  by_contra hne
  rcases lt_or_gt_of_ne hne with hlt | hlt
  · exact h3 ((mem_intRange_toFinset N _).mpr ⟨by omega, by omega⟩)
  · have hN := h2 (N : Int) (by omega) (by omega)
    rw [mem_intRange_toFinset] at hN
    omega

theorem commitStep_mono (s : AggState) (v : Int) :
    s.committed ≤ (commitStep s v).committed := by
  rw [commitStep_committed]
  exact absorbGo_le _ _ _

theorem foldl_commitStep_mono (l : List Int) : ∀ (s : AggState),
    s.committed ≤ (l.foldl commitStep s).committed := by
  induction l with
  | nil => intro s; exact le_refl _
  | cons a t ih =>
    intro s
    exact le_trans (commitStep_mono s a) (ih (commitStep s a))

theorem reached_append_mono (l1 l2 : List Int) :
    (reached l1).committed ≤ (reached (l1 ++ l2)).committed := by
  simp only [reached, List.foldl_append]
  exact foldl_commitStep_mono l2 _

/-- **C1** (completeness and order independence): after all offsets
`0, …, N-1` are processed, each exactly once and in any order, the
watermark equals `N - 1`; and the watermark after processing any list of
offsets depends only on the set of offsets received, not their order or
multiplicity. -/
theorem watermark_completeness (N : Nat) (l l2 : List Int)
    (hperm : l.Perm (intRange N)) (hset : l2.toFinset = l.toFinset) :
    (reached l).committed = (N : Int) - 1 ∧
    (reached l2).committed = (reached l).committed := by
  refine ⟨committed_of_perm N l hperm, ?_⟩
  refine committed_unique l.toFinset _ _ ?_ (reached_SInv l)
  rw [← hset]
  exact reached_SInv l2

theorem watermark_completeness_witness :
    (reached [2, 0, 1]).committed = (3 : Int) - 1 ∧
    (reached [1, 2, 0, 1]).committed = (reached [2, 0, 1]).committed :=
  watermark_completeness 3 [2, 0, 1] [1, 2, 0, 1] (by decide) (by decide)

/-- **C2** (monotonicity): for any sequence of offsets processed by the
aggregator, the watermark after processing a longer prefix is at least the
watermark after any shorter prefix: the watermark is monotonically
non-decreasing over the aggregator's lifetime. -/
theorem watermark_monotone (l : List Int) (i j : Nat) (hij : i ≤ j) :
    (reached (l.take i)).committed ≤ (reached (l.take j)).committed := by
  have hsplit : l.take j = l.take i ++ (l.take j).drop i := by
    conv_lhs => rw [← List.take_append_drop i (l.take j)]
    rw [List.take_take, min_eq_left hij]
  rw [hsplit]
  exact reached_append_mono _ _

theorem watermark_monotone_witness :
    (reached ([5, 0, 1].take 1)).committed ≤ (reached ([5, 0, 1].take 3)).committed :=
  watermark_monotone [5, 0, 1] 1 3 (by decide)

/-- **C3** (no over-commit): after processing any sequence of offsets, the
watermark is the greatest value `W` such that every offset in `[0, W]` has
been received (in particular it is `-1` when offset `0` is missing, since
`-1` is then the greatest such value); and the watermark is strictly below
any `V` for which some offset in `[0, V]` has not been received. -/
theorem watermark_greatest_contiguous (l : List Int) :
    IsGreatest {W : Int | ∀ k : Int, 0 ≤ k → k ≤ W → k ∈ l.toFinset}
      (reached l).committed ∧
    ∀ V k : Int, 0 ≤ k → k ≤ V → k ∉ l.toFinset → (reached l).committed < V := by
  obtain ⟨h1, h2, h3, h4, h5⟩ := reached_SInv l
  constructor
  · constructor
    · exact h2
    · intro W hW
      by_contra hgt
      push_neg at hgt
      exact h3 (hW _ (by omega) (by omega))
  · intro V k hk0 hkV hkn
    by_contra hge
    push_neg at hge
    exact hkn (h2 k hk0 (by omega))

theorem watermark_greatest_contiguous_witness :
    (reached [0, 5]).committed < 3 :=
  (watermark_greatest_contiguous [0, 5]).2 3 2 (by decide) (by decide) (by decide)

/-- **C4 counterexample**: with submit order `[2,0,1,4,3]`, the watermark
after the third commit step (offset 1) is 2, not 1 as the claim states:
once `{0,1,2}` have all been received the absorb loop advances past 2. -/
theorem scenarioA_claim_false :
    (reached [2, 0, 1]).committed = 2 ∧ (reached [2, 0, 1]).committed ≠ 1 := by
  decide

/-- **C4 amended**: with N=5 and offsets processed in the order
`[2,0,1,4,3]`, the watermark after each of the five commit steps is, in
order: -1, 0, 2, 2, 4. -/
theorem scenarioA_watermarks :
    (reached [2]).committed = -1 ∧
    (reached [2, 0]).committed = 0 ∧
    (reached [2, 0, 1]).committed = 2 ∧
    (reached [2, 0, 1, 4]).committed = 2 ∧
    (reached [2, 0, 1, 4, 3]).committed = 4 := by
  decide

theorem SInv_insert_neg (R : Finset Int) (s : AggState) (v : Int)
    (h : SInv R s) (hv : v < 0) : SInv (insert v R) s := by
  obtain ⟨h1, h2, h3, h4, h5⟩ := h
  refine ⟨h1, fun k hk0 hkc => Finset.mem_insert_of_mem (h2 k hk0 hkc), ?_,
    fun x hx => Finset.mem_insert_of_mem (h4 hx), ?_⟩
  · intro hmem
    rcases Finset.mem_insert.mp hmem with heq | hmem2
    · omega
    · exact h3 hmem2
  · intro x hx hlt
    rcases Finset.mem_insert.mp hx with rfl | hx2
    · exfalso; omega
    · exact h5 x hx2 hlt

/-- **C5 counterexample**: re-submitting an offset that is already absorbed
into the watermark (0, after the watermark reached 0) is not a no-op on the
pending set: the Go code re-inserts it into the map `commits`, where it
stays.  The watermark is unchanged. -/
theorem duplicate_changes_pending :
    (0 : Int) ≤ (reached [0]).committed ∧
    (commitStep (reached [0]) 0).commits ≠ (reached [0]).commits ∧
    (commitStep (reached [0]) 0).committed = (reached [0]).committed := by
  decide

/-- **C5 amended**: processing an offset already present in the pending set
leaves the whole state (pending set and watermark) unchanged; processing an
offset already absorbed into the watermark (≤ the current watermark) leaves
the watermark unchanged but re-inserts the offset into the pending set, and
it never changes the final watermark reached after the remaining offsets
are processed; no error occurs in either case (the step is total). -/
theorem duplicate_idempotent (l l2 : List Int) (v : Int) :
    (v ∈ (reached l).commits → commitStep (reached l) v = reached l) ∧
    (v ≤ (reached l).committed →
      (commitStep (reached l) v).committed = (reached l).committed ∧
      (commitStep (reached l) v).commits = insert v (reached l).commits ∧
      (reached (l ++ v :: l2)).committed = (reached (l ++ l2)).committed) := by
  obtain ⟨h1, h2, h3, h4, h5⟩ := reached_SInv l
  constructor
  · intro hv
    have hins : insert v (reached l).commits = (reached l).commits :=
      Finset.insert_eq_self.mpr hv
    have hnx : (reached l).committed + 1 ∉ insert v (reached l).commits := by
      rw [hins]
      intro hmem
      exact h3 (h4 hmem)
    apply AggState.eq_of_parts
    · rw [commitStep_commits, absorbGo_exit _ _ _ hnx, hins]
    · rw [commitStep_committed, absorbGo_exit _ _ _ hnx]
  · intro hvle
    have hnx : (reached l).committed + 1 ∉ insert v (reached l).commits := by
      intro hmem
      rcases Finset.mem_insert.mp hmem with heq | hmem2
      · omega
      · exact h3 (h4 hmem2)
    refine ⟨?_, ?_, ?_⟩
    · rw [commitStep_committed, absorbGo_exit _ _ _ hnx]
    · rw [commitStep_commits, absorbGo_exit _ _ _ hnx]
    · have htf : (l ++ v :: l2).toFinset = insert v (l ++ l2).toFinset := by
        ext x
        simp only [List.toFinset_append, List.toFinset_cons, Finset.mem_union,
          Finset.mem_insert, List.mem_toFinset]
        tauto
      have hS1 : SInv (insert v (l ++ l2).toFinset) (reached (l ++ v :: l2)) := by
        rw [← htf]
        exact reached_SInv _
      have hS2 : SInv (insert v (l ++ l2).toFinset) (reached (l ++ l2)) := by
        by_cases hv0 : 0 ≤ v
        · have hvR : v ∈ (l ++ l2).toFinset := by
            rw [List.toFinset_append]
            exact Finset.mem_union_left _ (h2 v hv0 hvle)
          rw [Finset.insert_eq_self.mpr hvR]
          exact reached_SInv _
        · exact SInv_insert_neg _ _ _ (reached_SInv _) (by omega)
      exact committed_unique _ _ _ hS1 hS2

theorem duplicate_idempotent_witness :
    commitStep (reached [1]) 1 = reached [1] ∧
    (reached ([0] ++ 0 :: [1])).committed = (reached ([0] ++ [1])).committed :=
  ⟨(duplicate_idempotent [1] [] 1).1 (by decide),
   ((duplicate_idempotent [0] [1] 0).2 (by decide)).2.2⟩

/-- **C6 counterexample**: after processing the sequence `[0, 0]`, the
pending set contains 0 while the watermark equals 0, so a pending member is
not strictly greater than the watermark. -/
theorem pending_le_watermark_example :
    (0 : Int) ∈ (reached [0, 0]).commits ∧ (reached [0, 0]).committed = 0 := by
  decide

/-- **C6 amended**: at every point during the processing of a sequence of
pairwise-distinct non-negative offsets, every member of the pending set is
strictly greater than the current watermark. -/
theorem pending_above_watermark (l : List Int) (hnd : l.Nodup)
    (hpos : ∀ x ∈ l, 0 ≤ x) (i : Nat) :
    ∀ x ∈ (reached (l.take i)).commits, (reached (l.take i)).committed < x :=
  (reached_PInv (l.take i) (hnd.sublist (List.take_sublist i l))
    (fun x hx => hpos x (List.take_subset i l hx))).2

theorem pending_above_watermark_witness :
    (reached ([3, 0].take 1)).committed < 3 :=
  pending_above_watermark [3, 0] (by decide) (by decide) 1 3 (by decide)

theorem pending_card_eq (l : List Int) (hnd : l.Nodup)
    (hpos : ∀ x ∈ l, 0 ≤ x) :
    (reached l).commits.card + ((reached l).committed + 1).toNat = l.length := by
  obtain ⟨⟨h1, h2, h3, h4, h5⟩, hgt⟩ := reached_PInv l hnd hpos
  have hfil : (reached l).commits =
      l.toFinset.filter (fun x => (reached l).committed < x) := by
    ext x
    simp only [Finset.mem_filter]
    constructor
    · intro hx
      exact ⟨h4 hx, hgt x hx⟩
    · intro ⟨hxR, hxW⟩
      exact h5 x hxR hxW
  have hfil2 : l.toFinset.filter (fun x => ¬ (reached l).committed < x) =
      Finset.Icc 0 (reached l).committed := by
    ext x
    simp only [Finset.mem_filter, Finset.mem_Icc, not_lt]
    constructor
    · intro ⟨hxR, hxW⟩
      exact ⟨hpos x (List.mem_toFinset.mp hxR), hxW⟩
    · intro ⟨hx0, hxW⟩
      exact ⟨h2 x hx0 hxW, hxW⟩
  have hsplit := Finset.filter_card_add_filter_neg_card_eq_card
    (s := l.toFinset) (p := fun x => (reached l).committed < x)
  rw [hfil2, ← hfil, List.toFinset_card_of_nodup hnd] at hsplit
  have hIcc : (Finset.Icc (0 : Int) (reached l).committed).card =
      ((reached l).committed + 1).toNat := by
    rw [Int.card_Icc]
    norm_num
  rw [hIcc] at hsplit
  exact hsplit

/-- **C7 counterexample**: with N=2 and the in-order permutation `[0,1]`,
after the first commit step the pending set is empty yet the watermark is
0, not N-1 = 1: the pending set's size can reach 0 strictly before the
watermark reaches N-1. -/
theorem pending_zero_before_terminal :
    List.Perm [0, 1] (intRange 2) ∧
    (reached ([0, 1].take 1)).commits.card = 0 ∧
    (reached ([0, 1].take 1)).committed ≠ (2 : Int) - 1 := by
  decide

/-- **C7 amended**: for every permutation of the offsets `0, …, N-1` and
every point `i ≤ N` of its processing, the pending set's size is at most
(number of offsets submitted so far) − (watermark + 1); whenever the
watermark equals N-1 the pending set is empty; and at the end of
processing (i = N) the pending set is empty and the watermark is N-1. -/
theorem pending_card_bound (N : Nat) (l : List Int) (i : Nat)
    (hperm : l.Perm (intRange N)) (hiN : i ≤ N) :
    ((reached (l.take i)).commits.card : Int) ≤
      (i : Int) - ((reached (l.take i)).committed + 1) ∧
    ((reached (l.take i)).committed = (N : Int) - 1 →
      (reached (l.take i)).commits.card = 0) ∧
    (i = N →
      (reached (l.take i)).commits.card = 0 ∧
      (reached (l.take i)).committed = (N : Int) - 1) := by
  have hnd_l : l.Nodup := hperm.nodup_iff.mpr (intRange_nodup N)
  have hlen : l.length = N := by
    rw [hperm.length_eq, intRange_length]
  have hpos_l : ∀ x ∈ l, 0 ≤ x := by
    intro x hx
    have hx2 : x ∈ (intRange N).toFinset :=
      List.mem_toFinset.mpr (hperm.mem_iff.mp hx)
    exact ((mem_intRange_toFinset N x).mp hx2).1
  have ht_nd : (l.take i).Nodup := hnd_l.sublist (List.take_sublist i l)
  have ht_pos : ∀ x ∈ l.take i, 0 ≤ x :=
    fun x hx => hpos_l x (List.take_subset i l hx)
  have hsum := pending_card_eq (l.take i) ht_nd ht_pos
  rw [List.length_take, hlen, min_eq_left hiN] at hsum
  have h1 : -1 ≤ (reached (l.take i)).committed := (reached_SInv (l.take i)).1
  refine ⟨by omega, by intro hW; omega, ?_⟩
  intro hiN2
  subst hiN2
  have htake : l.take i = l := List.take_of_length_le (le_of_eq hlen)
  rw [htake] at hsum ⊢
  have hc := committed_of_perm i l hperm
  rw [hc] at hsum
  refine ⟨by omega, hc⟩

theorem pending_card_bound_witness :
    ((reached ([1, 0].take 1)).commits.card : Int) ≤
      (1 : Int) - ((reached ([1, 0].take 1)).committed + 1) :=
  (pending_card_bound 2 [1, 0] 1 (by decide) (by decide)).1

/-- **C8 counterexample**: with N=2 (offsets drawn from `{0,1}`), the
out-of-range offset 2 submitted after 0 and 1 IS absorbed into the
watermark: the final watermark is 2, exceeding the terminal value
N-1 = 1. -/
theorem out_of_range_absorbed :
    (reached [0, 1, 2]).committed = 2 ∧
    ¬ (reached [0, 1, 2]).committed ≤ (2 : Int) - 1 := by
  decide

/-- **C8 amended**: an out-of-range offset is silently accepted (the commit
step is total and never errors).  Whenever some in-range offset
`m ∈ [0, N-1]` has not been submitted, the watermark stays strictly below
`m` — hence strictly below N-1 — and no offset `v ≥ N` is ever absorbed
into the watermark.  (An offset `v ≥ N` can be absorbed only in the
degenerate run where every offset of `[0, N-1]` and every value up to `v`
was also submitted, as the counterexample shows.) -/
theorem out_of_range_not_absorbed (N : Nat) (l : List Int) (m : Int)
    (h0 : 0 ≤ m) (h1 : m ≤ (N : Int) - 1) (h2 : m ∉ l.toFinset) :
    (reached l).committed < m ∧
    (reached l).committed < (N : Int) - 1 ∧
    ∀ v : Int, (N : Int) ≤ v → ¬ v ≤ (reached l).committed := by
  obtain ⟨hs1, hs2, hs3, _, _⟩ := reached_SInv l
  have hcm : (reached l).committed < m := by
    by_contra hge
    exact h2 (hs2 m h0 (by omega))
  refine ⟨hcm, by omega, ?_⟩
  intro v hv hle
  exact h2 (hs2 m h0 (by omega))

theorem out_of_range_not_absorbed_witness :
    (reached [1, 5]).committed < 0 :=
  (out_of_range_not_absorbed 2 [1, 5] 0 (by decide) (by decide) (by decide)).1

/-- **C9** (termination of the absorb loop): the loop stabilizes within as
many iterations as the pending set has elements — running it with any fuel
at least the set's cardinality gives the same result as running it with
fuel exactly the cardinality (each iteration removes the element `next`
from the finite set), so the embedded commit step is total. -/
theorem absorb_loop_terminates (fuel : Nat) (S : Finset Int) (c : Int)
    (h : S.card ≤ fuel) : absorbGo fuel S c = absorbGo S.card S c :=
  absorbGo_fuel_ext fuel S.card S c h (le_refl _)

theorem absorb_loop_terminates_witness :
    absorbGo 5 ({0, 1} : Finset Int) (-1) =
      absorbGo ({0, 1} : Finset Int).card ({0, 1} : Finset Int) (-1) :=
  absorb_loop_terminates 5 ({0, 1} : Finset Int) (-1) (by decide)

/-- **C10**: after every sequence of commit steps, `watermark + 1` is not a
member of the pending set; consequently a single commit step advances the
watermark if and only if the offset it processes equals `watermark + 1` at
the time of the call (for arbitrary offset sequences, in particular for
sequences of distinct offsets). -/
theorem advance_iff_next (l : List Int) (v : Int) :
    (reached l).committed + 1 ∉ (reached l).commits ∧
    ((reached l).committed < (commitStep (reached l) v).committed ↔
      v = (reached l).committed + 1) := by
  obtain ⟨h1, h2, h3, h4, h5⟩ := reached_SInv l
  have hnotin : (reached l).committed + 1 ∉ (reached l).commits :=
    fun hmem => h3 (h4 hmem)
  refine ⟨hnotin, ?_, ?_⟩
  · intro hadv
    by_contra hne
    have hnx : (reached l).committed + 1 ∉ insert v (reached l).commits := by
      intro hmem
      rcases Finset.mem_insert.mp hmem with heq | hmem2
      · exact hne heq.symm
      · exact hnotin hmem2
    rw [commitStep_committed, absorbGo_exit _ _ _ hnx] at hadv
    exact lt_irrefl _ hadv
  · rintro rfl
    rw [commitStep_committed]
    have hmem : (reached l).committed + 1 ∈
        insert ((reached l).committed + 1) (reached l).commits :=
      Finset.mem_insert_self _ _
    have hpos : 0 < (insert ((reached l).committed + 1) (reached l).commits).card :=
      Finset.card_pos.mpr ⟨_, hmem⟩
    obtain ⟨m, hm⟩ :
        ∃ m, (insert ((reached l).committed + 1) (reached l).commits).card = m + 1 :=
      ⟨(insert ((reached l).committed + 1) (reached l).commits).card - 1, by omega⟩
    rw [hm]
    simp only [absorbGo]
    rw [if_pos hmem]
    exact lt_of_lt_of_le (lt_add_one _) (absorbGo_le m _ _)

theorem advance_iff_next_witness :
    (reached [0, 2]).committed + 1 ∉ (reached [0, 2]).commits ∧
    ((reached [0, 2]).committed < (commitStep (reached [0, 2]) 1).committed ↔
      1 = (reached [0, 2]).committed + 1) :=
  advance_iff_next [0, 2] 1
